import Mathlib

/-!
Shallow embedding of the core of the `engine` chess program
(src/score.rs, src/evaluation.rs, src/hash.rs, src/moveorder.rs,
src/search.rs, src/searchinterface.rs), together with theorems checking
the natural-language specification against the code.

Machine integers are modelled as `Int`/`Nat` with explicit wrapping where
the Rust code can wrap (`u8` generation arithmetic, `u64` hash rotation,
`i16` evaluation sums).  The external `chess` crate (boards, legal move
generation, check detection, Zobrist hashing) is out of scope of the
repository and is modelled by a record of operations `ChessOps`.
-/

namespace Engine

/-! ### Score algebra — src/score.rs

`BoardScore` wraps an `i16` (`inner`); the derived Rust ordering compares
`inner`.  All operations below are direct translations. -/

structure BoardScore where
  inner : Int
  deriving DecidableEq

namespace BoardScore

def BEST_SCORE : BoardScore := ⟨32767⟩

def MATE : BoardScore := ⟨32766⟩

def MATE_RANGE_BOTTOM : BoardScore := ⟨32766 - 255⟩

def EVEN : BoardScore := ⟨0⟩

def MATED : BoardScore := ⟨-32766⟩

def MATED_RANGE_TOP : BoardScore := ⟨-32766 + 255⟩

def WORST_SCORE : BoardScore := ⟨-32767⟩

def NO_SCORE : BoardScore := ⟨-32768⟩

instance : LT BoardScore := ⟨fun a b => a.inner < b.inner⟩

instance : LE BoardScore := ⟨fun a b => a.inner ≤ b.inner⟩

instance (a b : BoardScore) : Decidable (a < b) :=
  inferInstanceAs (Decidable (a.inner < b.inner))

instance (a b : BoardScore) : Decidable (a ≤ b) :=
  inferInstanceAs (Decidable (a.inner ≤ b.inner))

theorem lt_def (a b : BoardScore) : (a < b) = (a.inner < b.inner) := rfl

theorem le_def (a b : BoardScore) : (a ≤ b) = (a.inner ≤ b.inner) := rfl

/-- `BoardScore::neg`: negation, fixing the `NO_SCORE` sentinel (negating
`i16::MIN` would overflow in Rust). -/
def neg (s : BoardScore) : BoardScore :=
  if s.inner ≠ NO_SCORE.inner then ⟨-s.inner⟩ else NO_SCORE

/-- `BoardScore::is_mate_score`. -/
def is_mate_score (s : BoardScore) : Bool :=
  MATE_RANGE_BOTTOM ≤ s ∨ (s ≤ MATED_RANGE_TOP ∧ s ≠ NO_SCORE)

/-- `BoardScore::increment_mate_plies`. -/
def increment_mate_plies (s : BoardScore) : BoardScore :=
  if MATE_RANGE_BOTTOM < s ∧ s ≤ MATE then ⟨s.inner - 1⟩
  else if s < MATED_RANGE_TOP ∧ MATED ≤ s then ⟨s.inner + 1⟩
  else s

/-- `BoardScore::decrement_mate_plies`. -/
def decrement_mate_plies (s : BoardScore) : BoardScore :=
  if MATE_RANGE_BOTTOM ≤ s ∧ s ≤ MATE then ⟨s.inner + 1⟩
  else if s ≤ MATED_RANGE_TOP ∧ MATED ≤ s then ⟨s.inner - 1⟩
  else s

/-- `BoardScore::evaluation`: build a score from a centipawn value. -/
def evaluation (e : Int) : BoardScore := ⟨e⟩

end BoardScore

/-! ### Bounded scores — src/score.rs -/

inductive BoundedScore where
  | Exact (s : BoardScore)
  | LowerBound (s : BoardScore)
  | UpperBound (s : BoardScore)
  deriving DecidableEq

namespace BoundedScore

/-- `BoundedScore::unwrap`. -/
def unwrap : BoundedScore → BoardScore
  | Exact x => x
  | LowerBound x => x
  | UpperBound x => x

/-- `BoundedScore::neg`: negation swaps lower and upper bounds. -/
def neg : BoundedScore → BoundedScore
  | Exact x => Exact x.neg
  | LowerBound x => UpperBound x.neg
  | UpperBound x => LowerBound x.neg

/-- `BoundedScore::increment_mate_plies`. -/
def increment_mate_plies : BoundedScore → BoundedScore
  | Exact x => Exact x.increment_mate_plies
  | LowerBound x => LowerBound x.increment_mate_plies
  | UpperBound x => UpperBound x.increment_mate_plies

/-- `BoundedScore::is_exact`. -/
def is_exact : BoundedScore → Bool
  | Exact _ => true
  | _ => false

/-- `BoundedScore::is_lowerbound`. -/
def is_lowerbound : BoundedScore → Bool
  | LowerBound _ => true
  | _ => false

/-- `BoundedScore::is_upperbound`. -/
def is_upperbound : BoundedScore → Bool
  | UpperBound _ => true
  | _ => false

/-- `PartialOrd::partial_cmp` on `BoardScore` (total, derived from `inner`). -/
def score_cmp (a b : BoardScore) : Ordering := compare a.inner b.inner

/-- `impl PartialOrd for BoundedScore`: the guarded match from the source,
branch for branch. -/
def partial_cmp : BoundedScore → BoundedScore → Option Ordering
  | LowerBound a, LowerBound b => some (score_cmp a b)
  | Exact a, Exact b => some (score_cmp a b)
  | UpperBound a, UpperBound b => some (score_cmp a b)
  | LowerBound a, Exact b => if b ≤ a then some (score_cmp a b) else none
  | LowerBound a, UpperBound b => if b ≤ a then some (score_cmp a b) else none
  | Exact a, UpperBound b => if b ≤ a then some (score_cmp a b) else none
  | Exact a, LowerBound b => if a ≤ b then some (score_cmp a b) else none
  | UpperBound a, LowerBound b => if a ≤ b then some (score_cmp a b) else none
  | UpperBound a, Exact b => if a ≤ b then some (score_cmp a b) else none

/-- Rust `PartialOrd::ge`, derived from `partial_cmp`. -/
def rust_ge (a b : BoundedScore) : Bool :=
  match partial_cmp a b with
  | some Ordering.gt => true
  | some Ordering.eq => true
  | _ => false

/-- Rust `PartialOrd::gt`, derived from `partial_cmp`. -/
def rust_gt (a b : BoundedScore) : Bool :=
  match partial_cmp a b with
  | some Ordering.gt => true
  | _ => false

end BoundedScore

/-! ### The external chess interface

The `chess` crate is an external collaborator of this repository; the
operations the core uses are collected in a record.  `pieceCount b c p`
models `(board.pieces(p) & board.color_combined(c)).popcnt()`;
`inCheck b` models `*board.checkers() != chess::EMPTY`; `getHash` is the
64-bit Zobrist hash. -/

inductive Color where
  | white
  | black
  deriving DecidableEq

inductive Piece where
  | pawn
  | knight
  | bishop
  | rook
  | queen
  | king
  deriving DecidableEq

structure ChessOps (Board Move : Type) where
  legalMoves : Board → List Move
  makeMove : Board → Move → Board
  inCheck : Board → Bool
  getHash : Board → Nat
  sideToMove : Board → Color
  pieceCount : Board → Color → Piece → Nat

/-! ### Evaluation — src/evaluation.rs -/

/-- Two's-complement wrap into the `i16` range, applied where the Rust
`i16` arithmetic could overflow (release-mode semantics). -/
def wrap16 (x : Int) : Int := (x + 32768) % 65536 - 32768

/-- `evaluate_always_zero`. -/
def evaluate_always_zero {Board : Type} (_board : Board) : BoardScore :=
  BoardScore.EVEN

/-- `evaluation`: the public entry point of src/evaluation.rs. -/
def evaluation {Board : Type} (board : Board) : BoardScore :=
  evaluate_always_zero board

/-- `evaluate_piece_values`: white-minus-black material balance in
centipawns, one term per piece kind. -/
def evaluate_piece_values {Board Move : Type} (ops : ChessOps Board Move)
    (board : Board) : BoardScore :=
  let piece_balance : Piece → Int := fun p =>
    (ops.pieceCount board Color.white p : Int) -
      (ops.pieceCount board Color.black p : Int)
  let e : Int := 0
  let e := wrap16 (e + wrap16 (900 * piece_balance Piece.queen))
  let e := wrap16 (e + wrap16 (500 * piece_balance Piece.rook))
  let e := wrap16 (e + wrap16 (300 * piece_balance Piece.knight))
  let e := wrap16 (e + wrap16 (300 * piece_balance Piece.bishop))
  let e := wrap16 (e + wrap16 (100 * piece_balance Piece.pawn))
  BoardScore.evaluation e

/-! ### Transposition table — src/hash.rs

Entries carry a packed info byte `HashEntryInfo`; the claims only concern
its two semantic fields (the source documents the byte as "semantically
equivalent" to this two-field struct), so the bit packing — memory
layout — is not modelled. -/

inductive HashEntryKind where
  | Unused
  | Deficient
  | Full
  deriving DecidableEq

inductive BoardScoreType where
  | Exact
  | LowerBound
  | UpperBound
  deriving DecidableEq

structure HashEntryInfo where
  entry_kind : HashEntryKind
  score_type : BoardScoreType
  deriving DecidableEq

/-- `HashEntryInfo::is_used`. -/
def HashEntryInfo.is_used (i : HashEntryInfo) : Bool :=
  i.entry_kind ≠ HashEntryKind.Unused

/-- `BoardScoreType::from_score`. -/
def BoardScoreType.from_score : BoundedScore → BoardScoreType
  | BoundedScore.Exact _ => BoardScoreType.Exact
  | BoundedScore.LowerBound _ => BoardScoreType.LowerBound
  | BoundedScore.UpperBound _ => BoardScoreType.UpperBound

structure HashEntry (Move : Type) where
  entry_type : HashEntryInfo
  hash : Nat
  best_move : Option Move
  score : BoardScore
  depth : Nat
  generation : Nat
  deriving DecidableEq

namespace HashEntry

/-- `HashEntry::with_contents`. -/
def with_contents {Move : Type} (hash : Nat) (best_move : Option Move)
    (score : BoundedScore) (depth : Nat) : HashEntry Move :=
  { entry_type := ⟨HashEntryKind.Full, BoardScoreType.from_score score⟩
    hash := hash
    best_move := best_move
    score := score.unwrap
    depth := depth
    generation := 0 }

/-- `HashEntry::score`. -/
def bscore {Move : Type} (e : HashEntry Move) : BoundedScore :=
  match e.entry_type.score_type with
  | BoardScoreType.Exact => BoundedScore.Exact e.score
  | BoardScoreType.LowerBound => BoundedScore.LowerBound e.score
  | BoardScoreType.UpperBound => BoundedScore.UpperBound e.score

/-- A zero-initialized slot of the freshly allocated table: the zero byte
decodes as kind `Unused`, bound `Exact`; all other fields are zero/`None`. -/
def zeroed {Move : Type} : HashEntry Move :=
  { entry_type := ⟨HashEntryKind.Unused, BoardScoreType.Exact⟩
    hash := 0
    best_move := none
    score := ⟨0⟩
    depth := 0
    generation := 0 }

end HashEntry

/-- `2^64`, the modulus of `u64` arithmetic. -/
def U64 : Nat := 18446744073709551616

/-- `u64::rotate_left(11)` on values below `2^64`. -/
def rot11 (x : Nat) : Nat := (x % 9007199254740992) * 2048 + x / 9007199254740992

/-- The additive constant `0x1000100010005` from `get_slot_idx_for_hash`. -/
def ROT_ADD : Nat := 281479271743493

/-- The inverse of `ROT_ADD` modulo `2^64` (used only in proofs). -/
def ROT_ADD_INV : Nat := 2243116873466236109

/-- `u8` wrapping subtraction `a.wrapping_sub(b)` (generation arithmetic). -/
def wrapping_sub8 (a b : Nat) : Nat := ((a % 256) + 256 - (b % 256)) % 256

/-- The inner `for _ in 0..u64::BITS` loop of `get_slot_idx_for_hash`; one
step per rotation.  Returns `Sum.inr` with the finished candidate list as
soon as four distinct slots have been found, otherwise `Sum.inl` with the
rotated-back hash and the candidates collected so far. -/
def slot_pass (cap : Nat) : Nat → Nat → List Nat → (Nat × List Nat) ⊕ List Nat
  | 0, hash, result => Sum.inl (hash, result)
  | n + 1, hash, result =>
    let next_slot := hash % cap
    if next_slot ∈ result then slot_pass cap n (rot11 hash) result
    else
      let result := result ++ [next_slot]
      if 4 ≤ result.length then Sum.inr result
      else slot_pass cap n (rot11 hash) result

/-- The outer `loop` of `get_slot_idx_for_hash`: after each 64-rotation
pass, add `ROT_ADD` (wrapping) and retry.  The Rust loop is unbounded; it
is modelled with fuel counting the passes, and `slot_idx_terminates`
(claim C8) proves the fuel below is never exhausted. -/
def slot_loop (cap : Nat) : Nat → Nat → List Nat → Option (List Nat)
  | 0, _, _ => none
  | fuel + 1, hash, result =>
    match slot_pass cap 64 hash result with
    | Sum.inr r => some r
    | Sum.inl (h, res) => slot_loop cap fuel ((h + ROT_ADD) % U64) res

/-- Pass budget for `slot_loop`; `2^64` passes always suffice. -/
def SLOT_FUEL : Nat := U64

/-- `HashMap::get_slot_idx_for_hash`.  Total by C8; the `getD` default is
unreachable for any capacity ≥ 4 and 64-bit hash. -/
def get_slot_idx_for_hash (cap : Nat) (hash : Nat) : List Nat :=
  (slot_loop cap SLOT_FUEL hash []).getD [0, 1, 2, 3]

/-- `HashMap`: `slots` is the backing allocation (`capacity` entries,
zero-initialized at creation). -/
structure HashMap (Move : Type) where
  slots : List (HashEntry Move)
  count : Nat
  capacity : Nat
  generation : Nat
  deriving DecidableEq

namespace HashMap

/-- `HashMap::new`, given the entry count (`megabytes*1024*1024/16`). -/
def new (Move : Type) (nbr_entries : Nat) : HashMap Move :=
  { slots := List.replicate nbr_entries HashEntry.zeroed
    count := 0
    capacity := nbr_entries
    generation := 0 }

/-- `HashMap::get_slot`. -/
def get_slot {Move : Type} (m : HashMap Move) (idx : Nat) : HashEntry Move :=
  m.slots.getD idx HashEntry.zeroed

/-- `HashMap::get`, keyed by the position's Zobrist hash. -/
def get {Move : Type} (m : HashMap Move) (hash : Nat) : Option (HashEntry Move) :=
  let slot_idx := get_slot_idx_for_hash m.capacity hash
  (slot_idx.map m.get_slot).find? fun e =>
    e.hash == hash && e.entry_type.is_used

/-- `HashMap::get_existing_slot` (first candidate whose stored hash equals
the key; no `is_used` filter in the source). -/
def get_existing_slot {Move : Type} (m : HashMap Move) (hash : Nat)
    (slot_idx : List Nat) : Option Nat :=
  slot_idx.find? fun i => (m.get_slot i).hash == hash

/-- `HashMap::get_empty_slot` (first unused candidate). -/
def get_empty_slot {Move : Type} (m : HashMap Move)
    (slot_idx : List Nat) : Option Nat :=
  slot_idx.find? fun i => !(m.get_slot i).entry_type.is_used

/-- First index of `l` whose `f`-value is minimal: the element
`entries[0]` after the source's `sort_unstable_by_key` (the unstable sort
leaves the choice among equal keys unspecified; this model fixes the first
one). -/
def pick_min_by (f : Nat → Nat) : List Nat → Option Nat
  | [] => none
  | i :: rest =>
    match pick_min_by f rest with
    | none => some i
    | some j => if f i ≤ f j then some i else some j

/-- `HashMap::get_purgeable_slot`, returning the chosen index and the new
`count` (`cg` of the source is `m.generation`). -/
def get_purgeable_slot {Move : Type} (m : HashMap Move)
    (slot_idx : List Nat) : Nat × Nat :=
  match slot_idx.find? (fun i =>
      2 ≤ wrapping_sub8 m.generation (m.get_slot i).generation) with
  | some idx => (idx, m.count + 1)
  | none =>
    match pick_min_by (fun i => (m.get_slot i).depth)
        (slot_idx.filter fun i =>
          1 ≤ wrapping_sub8 m.generation (m.get_slot i).generation) with
    | some idx => (idx, m.count + 1)
    | none =>
      ((pick_min_by (fun i => (m.get_slot i).depth) slot_idx).getD 0, m.count)

/-- `HashMap::get_mut_or_new_slot`, returning the chosen index and the new
`count`. -/
def get_mut_or_new_slot {Move : Type} (m : HashMap Move) (hash : Nat) : Nat × Nat :=
  match m.get_existing_slot hash (get_slot_idx_for_hash m.capacity hash) with
  | some idx => (idx, m.count)
  | none =>
    match m.get_empty_slot (get_slot_idx_for_hash m.capacity hash) with
    | some idx => (idx, m.count + 1)
    | none => m.get_purgeable_slot (get_slot_idx_for_hash m.capacity hash)

/-- `HashMap::insert`: write the entry into the chosen slot, overriding its
`hash` and `generation` fields. -/
def insert {Move : Type} (m : HashMap Move) (hash : Nat)
    (entry : HashEntry Move) : HashMap Move :=
  { m with
    slots := m.slots.set (m.get_mut_or_new_slot hash).1
      { entry with hash := hash, generation := m.generation }
    count := (m.get_mut_or_new_slot hash).2 }

/-- `HashMap::filled`. -/
def filled {Move : Type} (m : HashMap Move) : Nat := m.count

/-- `HashMap::new_generation` (`u8` wrapping increment). -/
def new_generation {Move : Type} (m : HashMap Move) : HashMap Move :=
  { m with generation := (m.generation + 1) % 256, count := 0 }

end HashMap

/-- The slot-selection priority exactly as the specification words it
(claim C4): five rules over the four candidate slots, first applicable
wins.  Written from the spec, to be compared with `get_mut_or_new_slot`
(which follows the source's staged code). -/
def spec_insert_target {Move : Type} (m : HashMap Move) (hash : Nat)
    (slot_idx : List Nat) : Nat × Nat :=
  match slot_idx.find? (fun i => (m.get_slot i).hash == hash) with
  | some idx => (idx, m.count)
  | none =>
    match slot_idx.find? (fun i =>
        (m.get_slot i).entry_type.entry_kind == HashEntryKind.Unused) with
    | some idx => (idx, m.count + 1)
    | none =>
      match slot_idx.find? (fun i =>
          2 ≤ wrapping_sub8 m.generation (m.get_slot i).generation) with
      | some idx => (idx, m.count + 1)
      | none =>
        match HashMap.pick_min_by (fun i => (m.get_slot i).depth)
            (slot_idx.filter fun i =>
              wrapping_sub8 m.generation (m.get_slot i).generation = 1) with
        | some idx => (idx, m.count + 1)
        | none =>
          ((HashMap.pick_min_by (fun i => (m.get_slot i).depth) slot_idx).getD 0,
            m.count)

/-! ### Move ordering — src/moveorder.rs -/

inductive GeneratorState where
  | BestMove
  | Rest
  deriving DecidableEq

/-- `MoveGenerator`: `inner` is the remaining stream of the underlying
legal-move generator. -/
structure MoveGenerator (Move : Type) where
  inner : List Move
  best_move : Option Move
  generator_state : GeneratorState

namespace MoveGenerator

/-- `MoveGenerator::new`. -/
def new {Board Move : Type} (ops : ChessOps Board Move) (position : Board)
    (best_move : Option Move) : MoveGenerator Move :=
  { inner := ops.legalMoves position
    best_move := best_move
    generator_state :=
      if best_move.isSome then GeneratorState.BestMove else GeneratorState.Rest }

/-- The `GeneratorState::Rest` arm of `Iterator::next`: pop moves from
`inner`, skipping any equal to `best_move`. -/
def rest_next {Move : Type} [DecidableEq Move] (best_move : Option Move) :
    List Move → Option (Move × List Move)
  | [] => none
  | m :: rest =>
    match best_move with
    | some bm => if m = bm then rest_next best_move rest else some (m, rest)
    | none => some (m, rest)

/-- `Iterator::next` for `MoveGenerator`. -/
def next {Move : Type} [DecidableEq Move] (g : MoveGenerator Move) :
    Option (Move × MoveGenerator Move) :=
  match g.generator_state with
  | GeneratorState.BestMove =>
    match g.best_move with
    | some m => some (m, { g with generator_state := GeneratorState.Rest })
    | none => none
  | GeneratorState.Rest =>
    match rest_next g.best_move g.inner with
    | some (m, rest) => some (m, { g with inner := rest })
    | none => none

/-- Moves kept by the `Rest` arm until the underlying generator is
exhausted. -/
def emit_rest {Move : Type} [DecidableEq Move] (best_move : Option Move) :
    List Move → List Move
  | [] => []
  | m :: rest =>
    match best_move with
    | some bm =>
      if m = bm then emit_rest best_move rest else m :: emit_rest best_move rest
    | none => m :: emit_rest best_move rest

/-- The full sequence of moves the iterator yields before returning
`None`; `emit_eq_next` below shows it is exactly the unfolding of
`next`. -/
def emit {Move : Type} [DecidableEq Move] (g : MoveGenerator Move) : List Move :=
  match g.generator_state with
  | GeneratorState.Rest => emit_rest g.best_move g.inner
  | GeneratorState.BestMove =>
    match g.best_move with
    | some m => m :: emit_rest g.best_move g.inner
    | none => []

theorem rest_next_emit {Move : Type} [DecidableEq Move] (bm : Option Move)
    (l : List Move) :
    emit_rest bm l =
      match rest_next bm l with
      | none => []
      | some (m, rest) => m :: emit_rest bm rest := by
  induction l with
  | nil => rfl
  | cons m rest ih =>
    cases bm with
    | none => rfl
    | some b =>
      by_cases h : m = b
      · simp only [emit_rest, rest_next, if_pos h]
        exact ih
      · simp only [emit_rest, rest_next, if_neg h]

/-- `emit` is the stream of the faithful iterator `next`. -/
theorem emit_eq_next {Move : Type} [DecidableEq Move] (g : MoveGenerator Move) :
    emit g =
      match next g with
      | none => []
      | some (m, g') => m :: emit g' := by
  rcases g with ⟨inner, bm, st⟩
  cases st with
  | BestMove =>
    cases bm with
    | none => rfl
    | some m => rfl
  | Rest =>
    show emit_rest bm inner = _
    rw [rest_next_emit bm inner]
    simp only [next]
    cases rest_next bm inner with
    | none => rfl
    | some p => rfl

end MoveGenerator

/-! ### Stop conditions — src/searchinterface.rs

The struct in src/searchinterface.rs declares `is_running`, `stop_now`
and `depth`; src/search.rs additionally reads a `movetime` field (listed
in the specification as `movetime_ms`), which is included here.  Atomics
are modelled as plain fields: the search worker is single-threaded and
the claims treated here concern one call. -/

structure StopConditions where
  is_running : Bool
  stop_now : Bool
  depth : Nat
  movetime : Nat
  deriving DecidableEq

/-- `StopConditions::new`. -/
def StopConditions.new : StopConditions :=
  { is_running := false, stop_now := false, depth := 255, movetime := 0 }

/-! ### Searcher — src/search.rs

`elapsed` models `starttime.elapsed().as_millis()`, an external clock
read; real time cannot be embedded, so the clock value is a state field
held constant during a call.  When `movetime = 0` the clock is never
consulted and the model is exact. -/

structure Searcher (Move : Type) where
  hashmap : HashMap Move
  stop_conditions : StopConditions
  nodes : Nat
  elapsed : Nat
  deriving DecidableEq

namespace Searcher

/-- `Searcher::should_stop_search`. -/
def should_stop_search {Move : Type} (s : Searcher Move) : Bool :=
  if s.stop_conditions.stop_now then true
  else if s.stop_conditions.movetime ≠ 0 ∧
      s.stop_conditions.movetime ≤ s.elapsed then true
  else false

/-- `Searcher::static_evaluation`. -/
def static_evaluation {Board Move : Type} (ops : ChessOps Board Move)
    (position : Board) : BoardScore :=
  evaluate_piece_values ops position

/-- `Searcher::leaf_evaluation` (alpha and beta are only used in debug
assertions in the source). -/
def leaf_evaluation {Board Move : Type} (ops : ChessOps Board Move)
    (position : Board) (_alpha _beta : BoardScore) (s : Searcher Move) :
    BoardScore × Searcher Move :=
  let s := { s with nodes := s.nodes + 1 }
  if 0 < (ops.legalMoves position).length then (static_evaluation ops position, s)
  else if ops.inCheck position then (BoardScore.MATED, s)
  else (BoardScore.EVEN, s)

end Searcher

/-- Mutable state of the `for next_move in move_gen` loop inside
`Searcher::alphabeta_search`. -/
structure ABState (Move : Type) where
  best_score : BoundedScore
  best_move : Option Move
  any_moves : Bool
  deficient_search : Bool
  alpha : BoardScore
  searcher : Searcher Move

/-- Entry portion of `Searcher::alphabeta_search`: node-counter bump, the
two overdetermined-window returns, and the transposition-table probe.
`Sum.inl` is an early return; `Sum.inr` carries `previous_best_move` into
the recursive part, alongside the `is_stopping` flag. -/
def ab_entry {Board Move : Type} (ops : ChessOps Board Move) (depth : Nat)
    (position : Board) (alpha beta : BoardScore) (s0 : Searcher Move) :
    (BoundedScore ⊕ Option Move) × Bool × Searcher Move :=
  let s : Searcher Move := { s0 with nodes := s0.nodes + 1 }
  if BoardScore.BEST_SCORE ≤ alpha then
    (Sum.inl (BoundedScore.UpperBound BoardScore.MATE), false, s)
  else if beta = BoardScore.WORST_SCORE then
    (Sum.inl (BoundedScore.LowerBound BoardScore.MATED), false, s)
  else
    let is_stopping := s.should_stop_search
    match s.hashmap.get (ops.getHash position) with
    | none => (Sum.inr none, is_stopping, s)
    | some e =>
      let early : Option BoundedScore :=
        if is_stopping ∨ depth ≤ e.depth then
          match e.bscore with
          | BoundedScore.Exact sc => some (BoundedScore.Exact sc)
          | BoundedScore.LowerBound sc =>
            if is_stopping ∨ beta ≤ sc then some (BoundedScore.LowerBound sc)
            else none
          | BoundedScore.UpperBound sc =>
            if is_stopping ∨ sc ≤ alpha then some (BoundedScore.UpperBound sc)
            else none
        else none
      match early with
      | some r => (Sum.inl r, is_stopping, s)
      | none => (Sum.inr e.best_move, is_stopping, s)

/-- The `for next_move in move_gen` loop of `Searcher::alphabeta_search`,
iterating over the emitted move sequence; `recur` is the recursive call at
`depth - 1`. -/
def ab_loop {Board Move : Type} [DecidableEq Move]
    (recur : Board → BoardScore → BoardScore → Searcher Move →
      BoundedScore × Searcher Move)
    (ops : ChessOps Board Move) (position : Board) (beta : BoardScore) :
    List Move → ABState Move → ABState Move
  | [], st => st
  | next_move :: rest, st =>
    let st : ABState Move := { st with any_moves := true }
    let new_position := ops.makeMove position next_move
    let r := recur new_position
      (beta.decrement_mate_plies).neg (st.alpha.decrement_mate_plies).neg
      st.searcher
    let search_score := (r.1.increment_mate_plies).neg
    let st : ABState Move := { st with searcher := r.2 }
    let st : ABState Move :=
      if search_score.unwrap = BoardScore.NO_SCORE ∨
          (search_score.is_lowerbound ∧ search_score.unwrap < beta) ∨
          (search_score.is_upperbound ∧ st.alpha < search_score.unwrap) then
        { st with deficient_search := true }
      else st
    let st : ABState Move :=
      if BoundedScore.rust_gt search_score st.best_score then
        let st' : ABState Move :=
          { st with best_score := search_score, best_move := some next_move }
        if ¬ search_score.is_upperbound ∧ st.alpha < search_score.unwrap then
          { st' with alpha := search_score.unwrap }
        else st'
      else st
    if ¬ st.best_score.is_upperbound ∧ beta ≤ st.best_score.unwrap then
      { st with best_score := BoundedScore.LowerBound st.best_score.unwrap }
    else ab_loop recur ops position beta rest st

/-- Tail of `Searcher::alphabeta_search` after the move loop: the
no-legal-moves (checkmate/stalemate) branch, store-depth computation, and
the transposition-table store. -/
def ab_finish {Board Move : Type} (ops : ChessOps Board Move)
    (position : Board) (depth : Nat) (st : ABState Move) :
    BoundedScore × Searcher Move :=
  let bs_depth : BoundedScore × Nat :=
    if st.any_moves then (st.best_score, depth)
    else if ops.inCheck position then (BoundedScore.Exact BoardScore.MATED, 255)
    else (BoundedScore.Exact BoardScore.EVEN, 255)
  let best_score := bs_depth.1
  let depth := bs_depth.2
  let store_depth :=
    if st.deficient_search ∨ st.searcher.should_stop_search then depth - 1
    else if best_score.is_exact ∧ best_score.unwrap.is_mate_score then 255
    else depth
  let searcher :=
    if best_score.unwrap ≠ BoardScore.NO_SCORE then
      { st.searcher with
        hashmap := st.searcher.hashmap.insert (ops.getHash position)
          (HashEntry.with_contents (ops.getHash position) st.best_move
            best_score store_depth) }
    else st.searcher
  (best_score, searcher)

/-- `Searcher::alphabeta_search`, by structural recursion on `depth`. -/
def alphabeta_search {Board Move : Type} [DecidableEq Move]
    (ops : ChessOps Board Move) (depth : Nat) :
    Board → BoardScore → BoardScore → Searcher Move →
      BoundedScore × Searcher Move :=
  match depth with
  | 0 => fun position alpha beta s0 =>
    match ab_entry ops 0 position alpha beta s0 with
    | (Sum.inl r, _, s) => (r, s)
    | (Sum.inr _, true, s) =>
      (BoundedScore.LowerBound BoardScore.WORST_SCORE, s)
    | (Sum.inr _, false, s) =>
      let r := Searcher.leaf_evaluation ops position alpha beta s
      (BoundedScore.Exact r.1, r.2)
  | d + 1 => fun position alpha beta s0 =>
    match ab_entry ops (d + 1) position alpha beta s0 with
    | (Sum.inl r, _, s) => (r, s)
    | (Sum.inr _, true, s) =>
      (BoundedScore.LowerBound BoardScore.WORST_SCORE, s)
    | (Sum.inr previous_best_move, false, s) =>
      let move_gen := MoveGenerator.new ops position previous_best_move
      let st := ab_loop (alphabeta_search ops d) ops position beta
        move_gen.emit
        { best_score := BoundedScore.UpperBound BoardScore.NO_SCORE
          best_move := none
          any_moves := false
          deficient_search := false
          alpha := alpha
          searcher := s }
      ab_finish ops position (d + 1) st

/-- Loop body of `Searcher::trace_pv`, indexed by the remaining loop
budget `k = 256 - nbr` (the source emits a move, increments `nbr`, and
breaks once `nbr > 255`, so exactly when the budget hits zero). -/
def trace_pv_loop {Board Move : Type} (ops : ChessOps Board Move)
    (m : HashMap Move) : Nat → Board → List Move
  | 0, _ => []
  | k + 1, position =>
    match m.get (ops.getHash position) with
    | none => []
    | some e =>
      match e.best_move with
      | none => []
      | some bm => bm :: trace_pv_loop ops m k (ops.makeMove position bm)

/-- `Searcher::trace_pv`, as the list of emitted moves (the source
concatenates them into the `info … pv` string). -/
def trace_pv {Board Move : Type} (ops : ChessOps Board Move)
    (s : Searcher Move) (position : Board) : List Move :=
  trace_pv_loop ops s.hashmap 256 position

/-- The `for depth in 1..=Depth::MAX` iterative-deepening loop of
`Searcher::search`; `remaining` counts the iterations left (255 at depth
1).  The per-iteration `info` line (nodes/nps/hashfull/pv printing) is
output-only and not part of the state. -/
def search_loop {Board Move : Type} [DecidableEq Move]
    (ops : ChessOps Board Move) (position : Board) :
    Nat → Nat → Searcher Move → Searcher Move
  | _, 0, s => s
  | depth, remaining + 1, s =>
    if s.should_stop_search then s
    else if s.stop_conditions.depth < depth then s
    else
      let res := alphabeta_search ops depth position
        BoardScore.WORST_SCORE BoardScore.BEST_SCORE s
      search_loop ops position (depth + 1) remaining res.2

/-- `Searcher::search`: reset the node counter, start a new table
generation, run iterative deepening, and read the best move off the root
entry (`none` models the `expect` panics).  The start-time reset only
affects the external clock, which `elapsed` models. -/
def search {Board Move : Type} [DecidableEq Move] (ops : ChessOps Board Move)
    (position : Board) (s0 : Searcher Move) : Searcher Move × Option Move :=
  let s := { s0 with nodes := 0, hashmap := s0.hashmap.new_generation }
  let s := search_loop ops position 1 255 s
  (s, (s.hashmap.get (ops.getHash position)).bind HashEntry.best_move)

/-! ## Concrete instances used by the theorems -/

/-- A queen-odds position with Black to move: the position of FEN
`rnb1kbnr/pppppppp/8/8/8/8/PPPPPPPP/RNBQKBNR` mirrored so that White is
missing the queen and it is Black's turn.  Black is ahead by exactly one
queen (900 centipawns).  Only the fields read by the evaluator
(`pieceCount`, `sideToMove`) matter to the claims using this instance;
the remaining fields carry the position's hash and innocuous values. -/
def queenOddsOps : ChessOps Unit Unit :=
  { legalMoves := fun _ => []
    makeMove := fun _ _ => ()
    inCheck := fun _ => false
    getHash := fun _ => 0
    sideToMove := fun _ => Color.black
    pieceCount := fun _ c p =>
      match c, p with
      | Color.white, Piece.queen => 0
      | Color.black, Piece.queen => 1
      | _, Piece.rook => 2
      | _, Piece.knight => 2
      | _, Piece.bishop => 2
      | _, Piece.pawn => 8
      | _, Piece.king => 1 }

/-! ## Claim theorems -/

/-- C1: the claim says the searcher's static evaluation is from the
side-to-move perspective, so a position where Black is to move and Black
is ahead in material evaluates positive.  In the code
`evaluate_piece_values` computes the White-minus-Black balance and never
reads the side to move: on the queen-odds position with Black to move and
Black a queen (900 cp) ahead it evaluates to −900, which is negative. -/
theorem c1_static_eval_is_white_perspective :
    Searcher.static_evaluation queenOddsOps () = BoardScore.evaluation (-900) ∧
    queenOddsOps.sideToMove () = Color.black ∧
    (queenOddsOps.pieceCount () Color.black Piece.queen : Int) -
        (queenOddsOps.pieceCount () Color.white Piece.queen : Int) = 1 ∧
    (Searcher.static_evaluation queenOddsOps ()).inner < 0 := by
  refine ⟨by decide, rfl, by decide, by decide⟩

/-- C2 (counterexample): the claim says `decrement_mate_plies` saturates
at `MATE`, in particular `decrement_mate_plies(MATE) = MATE`; the code
adds one, so `decrement_mate_plies(MATE) = BEST_SCORE ≠ MATE` (matching
the source doc comment "MATE becomes BEST_SCORE"). -/
theorem c2_decrement_not_saturating :
    BoardScore.MATE.decrement_mate_plies = BoardScore.BEST_SCORE ∧
    BoardScore.MATE.decrement_mate_plies ≠ BoardScore.MATE := by decide

/-- C2 (amended): for every score `s` with `MATE − 255 < s ≤ MATE`,
`increment_mate_plies(s) = s − 1` and `decrement_mate_plies(s) = s + 1`;
in particular `decrement_mate_plies(MATE) = BEST_SCORE`, with no
saturation at `MATE`. -/
theorem c2_mate_window_arithmetic (s : BoardScore)
    (h1 : BoardScore.MATE_RANGE_BOTTOM < s) (h2 : s ≤ BoardScore.MATE) :
    s.increment_mate_plies = ⟨s.inner - 1⟩ ∧
    s.decrement_mate_plies = ⟨s.inner + 1⟩ := by
  have h1' : BoardScore.MATE_RANGE_BOTTOM ≤ s := Int.le_of_lt h1
  constructor
  · unfold BoardScore.increment_mate_plies
    rw [if_pos ⟨h1, h2⟩]
  · unfold BoardScore.decrement_mate_plies
    rw [if_pos ⟨h1', h2⟩]

/-- C2 (witness): the amended statement applied at `s = MATE`. -/
theorem c2_mate_window_arithmetic_witness :
    (BoardScore.MATE_RANGE_BOTTOM < BoardScore.MATE ∧
      BoardScore.MATE ≤ BoardScore.MATE) ∧
    (BoardScore.MATE.increment_mate_plies = ⟨BoardScore.MATE.inner - 1⟩ ∧
      BoardScore.MATE.decrement_mate_plies = ⟨BoardScore.MATE.inner + 1⟩) :=
  ⟨⟨by decide, by decide⟩,
    c2_mate_window_arithmetic BoardScore.MATE (by decide) (by decide)⟩

/-- C5 (counterexample): the claim says `partial_cmp(Upper(10), Exact(20))`
returns `None` (incomparable); the code's `a <= b` guard matches
(`10 ≤ 20`) and it returns `Some(Less)`. -/
theorem c5_upper_vs_exact_comparable :
    BoundedScore.partial_cmp (BoundedScore.UpperBound (BoardScore.evaluation 10))
        (BoundedScore.Exact (BoardScore.evaluation 20)) = some Ordering.lt ∧
    BoundedScore.partial_cmp (BoundedScore.UpperBound (BoardScore.evaluation 10))
        (BoundedScore.Exact (BoardScore.evaluation 20)) ≠ none := by decide

/-- C5 (amended): `LowerBound(10) ≥ Exact(0)` holds, and
`UpperBound(10)` compared with `Exact(20)` yields `Some(Less)`
(`UpperBound(10) < Exact(20)`), not incomparable. -/
theorem c5_bounded_score_comparisons :
    BoundedScore.rust_ge (BoundedScore.LowerBound (BoardScore.evaluation 10))
        (BoundedScore.Exact (BoardScore.evaluation 0)) = true ∧
    BoundedScore.partial_cmp (BoundedScore.UpperBound (BoardScore.evaluation 10))
        (BoundedScore.Exact (BoardScore.evaluation 20)) = some Ordering.lt := by
  decide

/-- C10: the public `evaluation` entry point returns `EVEN` for every
board, by delegating to `evaluate_always_zero`; the piece-value evaluator
is not on this path. -/
theorem c10_evaluation_always_even {Board : Type} (b : Board) :
    evaluation b = BoardScore.EVEN ∧ evaluation b = evaluate_always_zero b :=
  ⟨rfl, rfl⟩

/-! ## Move-generator theorems (claim C9) -/

theorem emit_rest_none {Move : Type} [DecidableEq Move] (l : List Move) :
    MoveGenerator.emit_rest (none : Option Move) l = l := by
  induction l with
  | nil => rfl
  | cons m rest ih => simpa [MoveGenerator.emit_rest] using ih

theorem emit_rest_some {Move : Type} [DecidableEq Move] (b : Move)
    (l : List Move) :
    MoveGenerator.emit_rest (some b) l = l.filter fun x => x ≠ b := by
  induction l with
  | nil => rfl
  | cons m rest ih =>
    by_cases h : m = b
    · simp [MoveGenerator.emit_rest, List.filter, h, ih]
    · simp [MoveGenerator.emit_rest, List.filter, h, ih]

/-- A concrete board with legal moves `[1, 2, 3]`, used as the C9
witness input. -/
def hintedOps : ChessOps Unit Nat :=
  { legalMoves := fun _ => [1, 2, 3]
    makeMove := fun _ _ => ()
    inCheck := fun _ => false
    getHash := fun _ => 0
    sideToMove := fun _ => Color.white
    pieceCount := fun _ _ _ => 0 }

/-- C9: with hint `some m` the generator yields `m` first and afterwards
exactly the legal moves other than `m` (each exactly once when the
underlying generator emits each legal move once, i.e. the list has no
duplicates, and `m` never again); with hint `none` it yields exactly the
legal moves.  Both streams are the finite unfolding of the iterator
(`MoveGenerator.emit_eq_next`), which ends when the underlying list is
exhausted. -/
theorem c9_move_generator_yields {Board Move : Type} [DecidableEq Move]
    (ops : ChessOps Board Move) (pos : Board)
    (hnd : (ops.legalMoves pos).Nodup) :
    (∀ m : Move,
      (MoveGenerator.new ops pos (some m)).emit =
        m :: (ops.legalMoves pos).filter fun x => x ≠ m) ∧
    (MoveGenerator.new ops pos none).emit = ops.legalMoves pos ∧
    (∀ m : Move,
      ((ops.legalMoves pos).filter fun x => x ≠ m).count m = 0 ∧
      ∀ x ∈ ops.legalMoves pos, x ≠ m →
        ((ops.legalMoves pos).filter fun x => x ≠ m).count x = 1) := by
  refine ⟨fun m => ?_, ?_, fun m => ⟨?_, fun x hx hxm => ?_⟩⟩
  · show (m :: MoveGenerator.emit_rest (some m) (ops.legalMoves pos)) = _
    rw [emit_rest_some]
  · show MoveGenerator.emit_rest none (ops.legalMoves pos) = _
    exact emit_rest_none _
  · refine List.count_eq_zero_of_not_mem fun hm => ?_
    have := (List.mem_filter.mp hm).2
    simp at this
  · rw [List.count_filter (by simpa using hxm)]
    exact List.count_eq_one_of_mem hnd hx

/-- C9 (witness): the generator over legal moves `[1, 2, 3]`. -/
theorem c9_move_generator_yields_witness :
    (hintedOps.legalMoves ()).Nodup ∧
    ((∀ m : Nat,
      (MoveGenerator.new hintedOps () (some m)).emit =
        m :: (hintedOps.legalMoves ()).filter fun x => x ≠ m) ∧
    (MoveGenerator.new hintedOps () none).emit = hintedOps.legalMoves () ∧
    (∀ m : Nat,
      ((hintedOps.legalMoves ()).filter fun x => x ≠ m).count m = 0 ∧
      ∀ x ∈ hintedOps.legalMoves (), x ≠ m →
        ((hintedOps.legalMoves ()).filter fun x => x ≠ m).count x = 1)) :=
  ⟨by decide, c9_move_generator_yields hintedOps () (by decide)⟩

/-! ## PV-tracing theorems (claim C6) -/

theorem trace_pv_loop_length_le {Board Move : Type}
    (ops : ChessOps Board Move) (m : HashMap Move) :
    ∀ (k : Nat) (pos : Board), (trace_pv_loop ops m k pos).length ≤ k := by
  intro k
  induction k with
  | zero => intro pos; simp [trace_pv_loop]
  | succ k ih =>
    intro pos
    cases hg : m.get (ops.getHash pos) with
    | none => simp [trace_pv_loop, hg]
    | some e =>
      cases hb : e.best_move with
      | none => simp [trace_pv_loop, hg, hb]
      | some bm =>
        simp only [trace_pv_loop, hg, hb, List.length_cons]
        exact Nat.succ_le_succ (ih (ops.makeMove pos bm))

/-- A position whose table entry's best move leads back to itself: board
`Unit`, one move, hash `0`, and a table whose slot for hash `0` is a used
entry with a best move.  Following it, `trace_pv` loops. -/
def cycleOps : ChessOps Unit Unit :=
  { legalMoves := fun _ => [()]
    makeMove := fun _ _ => ()
    inCheck := fun _ => false
    getHash := fun _ => 0
    sideToMove := fun _ => Color.white
    pieceCount := fun _ _ _ => 0 }

def cycleEntry : HashEntry Unit :=
  { entry_type := ⟨HashEntryKind.Full, BoardScoreType.Exact⟩
    hash := 0
    best_move := some ()
    score := BoardScore.EVEN
    depth := 255
    generation := 0 }

def cycleSearcher : Searcher Unit :=
  { hashmap :=
      { slots := [cycleEntry, HashEntry.zeroed, HashEntry.zeroed, HashEntry.zeroed]
        count := 1
        capacity := 4
        generation := 0 }
    stop_conditions := StopConditions.new
    nodes := 0
    elapsed := 0 }

theorem cycle_trace_length :
    ∀ k, (trace_pv_loop cycleOps cycleSearcher.hashmap k ()).length = k := by
  have hget : cycleSearcher.hashmap.get (cycleOps.getHash ()) = some cycleEntry := by
    decide
  intro k
  induction k with
  | zero => rfl
  | succ k ih =>
    simp only [trace_pv_loop]
    rw [hget]
    show (() :: trace_pv_loop cycleOps cycleSearcher.hashmap k ()).length = k + 1
    rw [List.length_cons, ih]

/-- C6 (counterexample): the claim says `trace_pv` emits at most 255
moves even on a cyclic table; on this one-position cycle it emits 256
(the source's `nbr > 255` break is checked only after emitting). -/
theorem c6_trace_pv_emits_256 :
    (trace_pv cycleOps cycleSearcher ()).length = 256 ∧
    ¬ (trace_pv cycleOps cycleSearcher ()).length ≤ 255 := by
  have h : (trace_pv cycleOps cycleSearcher ()).length = 256 :=
    cycle_trace_length 256
  exact ⟨h, by omega⟩

/-- C6 (amended): for every table state and starting position,
`trace_pv` emits at most 256 moves, even when the table entries form a
cycle. -/
theorem c6_trace_pv_bounded {Board Move : Type} (ops : ChessOps Board Move)
    (s : Searcher Move) (pos : Board) :
    (trace_pv ops s pos).length ≤ 256 :=
  trace_pv_loop_length_le ops s.hashmap 256 pos

/-! ## Insert slot-selection theorems (claim C4) -/

theorem not_is_used_eq_unused (i : HashEntryInfo) :
    (!i.is_used) = (i.entry_kind == HashEntryKind.Unused) := by
  rcases i with ⟨k, st⟩
  cases k <;> rfl

theorem get_empty_slot_eq_find {Move : Type} (m : HashMap Move)
    (slot_idx : List Nat) :
    m.get_empty_slot slot_idx =
      slot_idx.find? fun i =>
        (m.get_slot i).entry_type.entry_kind == HashEntryKind.Unused := by
  unfold HashMap.get_empty_slot
  congr 1
  funext i
  exact not_is_used_eq_unused (m.get_slot i).entry_type

theorem get_purgeable_slot_eq_spec {Move : Type} (m : HashMap Move)
    (slot_idx : List Nat) :
    m.get_purgeable_slot slot_idx =
      match slot_idx.find? (fun i =>
          2 ≤ wrapping_sub8 m.generation (m.get_slot i).generation) with
      | some idx => (idx, m.count + 1)
      | none =>
        match HashMap.pick_min_by (fun i => (m.get_slot i).depth)
            (slot_idx.filter fun i =>
              wrapping_sub8 m.generation (m.get_slot i).generation = 1) with
        | some idx => (idx, m.count + 1)
        | none =>
          ((HashMap.pick_min_by (fun i => (m.get_slot i).depth) slot_idx).getD 0,
            m.count) := by
  unfold HashMap.get_purgeable_slot
  cases hold : slot_idx.find? (fun i =>
      2 ≤ wrapping_sub8 m.generation (m.get_slot i).generation) with
  | some idx => simp only [hold]
  | none =>
    have hall := List.find?_eq_none.mp hold
    have hfil :
        (slot_idx.filter fun i =>
            1 ≤ wrapping_sub8 m.generation (m.get_slot i).generation) =
          slot_idx.filter fun i =>
            wrapping_sub8 m.generation (m.get_slot i).generation = 1 := by
      refine List.filter_congr fun i hi => ?_
      have h2 : ¬ 2 ≤ wrapping_sub8 m.generation (m.get_slot i).generation := by
        simpa using hall i hi
      exact decide_eq_decide.mpr (by omega)
    simp only [hold, hfil]

/-- C4: `insert` picks the target slot among the four candidates by the
spec's priority (matching hash; else unused, incrementing `count`; else
generation lag ≥ 2 wrapping, incrementing `count`; else lowest depth
among those exactly one generation behind, incrementing `count`; else
lowest depth among all four), and the written slot's `generation` field
is set to the current generation.  `spec_insert_target` is the
priority written from the spec's words; the first conjunct identifies the
code's staged slot choice with it, the second shows the written entry. -/
theorem c4_insert_follows_priority {Move : Type} (m : HashMap Move)
    (hash : Nat) (entry : HashEntry Move) :
    m.get_mut_or_new_slot hash =
      spec_insert_target m hash (get_slot_idx_for_hash m.capacity hash) ∧
    m.insert hash entry =
      { m with
        slots := m.slots.set
          (spec_insert_target m hash (get_slot_idx_for_hash m.capacity hash)).1
          { entry with hash := hash, generation := m.generation }
        count :=
          (spec_insert_target m hash (get_slot_idx_for_hash m.capacity hash)).2 } := by
  have hmain : m.get_mut_or_new_slot hash =
      spec_insert_target m hash (get_slot_idx_for_hash m.capacity hash) := by
    unfold HashMap.get_mut_or_new_slot spec_insert_target
    unfold HashMap.get_existing_slot
    cases h1 : (get_slot_idx_for_hash m.capacity hash).find? (fun i =>
        (m.get_slot i).hash == hash) with
    | some idx => simp only [h1]
    | none =>
      simp only [h1, get_empty_slot_eq_find]
      cases h2 : (get_slot_idx_for_hash m.capacity hash).find? (fun i =>
          (m.get_slot i).entry_type.entry_kind == HashEntryKind.Unused) with
      | some idx => simp only [h2]
      | none => simp only [h2, get_purgeable_slot_eq_spec]
  refine ⟨hmain, ?_⟩
  unfold HashMap.insert
  rw [hmain]

/-! ## Stop-condition preservation (claim C7)

Nothing in `Searcher::search` or its callees ever stores to the shared
`StopConditions` block; the lemmas below track that through the
embedding. -/

theorem leaf_evaluation_stop_conditions {Board Move : Type}
    (ops : ChessOps Board Move) (pos : Board) (a b : BoardScore)
    (s : Searcher Move) :
    ((Searcher.leaf_evaluation ops pos a b s).2).stop_conditions =
      s.stop_conditions := by
  unfold Searcher.leaf_evaluation
  split
  · rfl
  · split <;> rfl

theorem ab_entry_stop_conditions {Board Move : Type}
    (ops : ChessOps Board Move) (depth : Nat) (pos : Board)
    (a b : BoardScore) (s : Searcher Move) :
    ((ab_entry ops depth pos a b s).2.2).stop_conditions =
      s.stop_conditions := by
  unfold ab_entry
  split
  · rfl
  · split
    · rfl
    · dsimp only
      repeat' split
      all_goals rfl

theorem ab_loop_stop_conditions {Board Move : Type} [DecidableEq Move]
    (recur : Board → BoardScore → BoardScore → Searcher Move →
      BoundedScore × Searcher Move)
    (ops : ChessOps Board Move) (position : Board) (beta : BoardScore)
    (hrec : ∀ p a b s, ((recur p a b s).2).stop_conditions = s.stop_conditions) :
    ∀ (moves : List Move) (st : ABState Move),
      ((ab_loop recur ops position beta moves st).searcher).stop_conditions =
        st.searcher.stop_conditions := by
  intro moves
  induction moves with
  | nil => intro st; rfl
  | cons mv rest ih =>
    intro st
    simp only [ab_loop]
    repeat' split
    all_goals simp [ih, hrec]

theorem ab_finish_stop_conditions {Board Move : Type}
    (ops : ChessOps Board Move) (position : Board) (depth : Nat)
    (st : ABState Move) :
    ((ab_finish ops position depth st).2).stop_conditions =
      st.searcher.stop_conditions := by
  unfold ab_finish
  dsimp only
  repeat' split
  all_goals rfl

theorem alphabeta_stop_conditions {Board Move : Type} [DecidableEq Move]
    (ops : ChessOps Board Move) :
    ∀ (depth : Nat) (pos : Board) (a b : BoardScore) (s : Searcher Move),
      ((alphabeta_search ops depth pos a b s).2).stop_conditions =
        s.stop_conditions := by
  intro depth
  induction depth with
  | zero =>
    intro pos a b s
    have hentry := ab_entry_stop_conditions ops 0 pos a b s
    simp only [alphabeta_search]
    cases he : ab_entry ops 0 pos a b s with
    | mk res rest =>
      rcases rest with ⟨flag, s'⟩
      rw [he] at hentry
      cases res with
      | inl r => exact hentry
      | inr pbm =>
        cases flag with
        | true => exact hentry
        | false =>
          simp only []
          rw [leaf_evaluation_stop_conditions]
          exact hentry
  | succ d ih =>
    intro pos a b s
    have hentry := ab_entry_stop_conditions ops (d + 1) pos a b s
    simp only [alphabeta_search]
    cases he : ab_entry ops (d + 1) pos a b s with
    | mk res rest =>
      rcases rest with ⟨flag, s'⟩
      rw [he] at hentry
      cases res with
      | inl r => exact hentry
      | inr pbm =>
        cases flag with
        | true => exact hentry
        | false =>
          simp only []
          rw [ab_finish_stop_conditions]
          rw [ab_loop_stop_conditions (alphabeta_search ops d) ops pos b
            (fun p a' b' s'' => ih p a' b' s'')]
          exact hentry

theorem search_loop_stop_conditions {Board Move : Type} [DecidableEq Move]
    (ops : ChessOps Board Move) (position : Board) :
    ∀ (remaining depth : Nat) (s : Searcher Move),
      ((search_loop ops position depth remaining s)).stop_conditions =
        s.stop_conditions := by
  intro remaining
  induction remaining with
  | zero => intro depth s; rfl
  | succ r ih =>
    intro depth s
    simp only [search_loop]
    split
    · rfl
    · split
      · rfl
      · rw [ih]
        exact alphabeta_stop_conditions ops depth position _ _ s

/-- C7: the claim says `search()` stores `true` into the shared
stop-conditions' `is_running` flag on entry and `false` before returning.
The code of `Searcher::search` (and everything it calls) never accesses
`is_running` at all: the whole search leaves the stop-conditions block —
in particular `is_running` — exactly as it found it. -/
theorem c7_search_never_writes_is_running {Board Move : Type}
    [DecidableEq Move] (ops : ChessOps Board Move) (position : Board)
    (s : Searcher Move) :
    ((search ops position s).1).stop_conditions = s.stop_conditions ∧
    ((search ops position s).1).stop_conditions.is_running =
      s.stop_conditions.is_running := by
  have h : ((search ops position s).1).stop_conditions = s.stop_conditions := by
    unfold search
    simp only []
    rw [search_loop_stop_conditions]
  exact ⟨h, by rw [h]⟩

/-! ## Terminal-position theorems (claim C3) -/

/-- The external interface of a position that is checkmate: no legal
moves and the king in check (for instance the black side of spec
Scenario C, `6k1/5ppp/8/8/8/8/5PPP/6K1 b` after a back-rank mate,
relabelled to hash 0). -/
def matedOps : ChessOps Unit Unit :=
  { legalMoves := fun _ => []
    makeMove := fun _ _ => ()
    inCheck := fun _ => true
    getHash := fun _ => 0
    sideToMove := fun _ => Color.black
    pieceCount := fun _ _ _ => 0 }

/-- A table state whose slot for hash 0 already holds a used `Exact EVEN`
entry of depth 255 — as left behind by an earlier search of a position
with the same Zobrist hash (the source accepts such collisions). -/
def poisonedSearcher : Searcher Unit :=
  { hashmap :=
      { slots :=
          [{ entry_type := ⟨HashEntryKind.Full, BoardScoreType.Exact⟩
             hash := 0
             best_move := none
             score := BoardScore.EVEN
             depth := 255
             generation := 0 },
            HashEntry.zeroed, HashEntry.zeroed, HashEntry.zeroed]
        count := 1
        capacity := 4
        generation := 0 }
    stop_conditions := StopConditions.new
    nodes := 0
    elapsed := 0 }

/-- A fresh, zero-filled four-slot table. -/
def freshSearcher : Searcher Unit :=
  { hashmap :=
      { slots := [HashEntry.zeroed, HashEntry.zeroed, HashEntry.zeroed,
          HashEntry.zeroed]
        count := 0
        capacity := 4
        generation := 0 }
    stop_conditions := StopConditions.new
    nodes := 0
    elapsed := 0 }

/-- C3 (counterexample): at depth 1 > 0, with the stop conditions never
triggering, on an in-check position with no legal moves, the claim says
`alphabeta_search` returns `Exact(MATED)` and stores a depth-255 entry.
With a table whose lookup for the position hits (here a stale `Exact
EVEN` entry of depth 255), the probe returns early: the call yields
`Exact(EVEN)` and stores nothing. -/
theorem c3_table_hit_preempts_terminal :
    matedOps.legalMoves () = [] ∧
    matedOps.inCheck () = true ∧
    poisonedSearcher.should_stop_search = false ∧
    (alphabeta_search matedOps 1 () BoardScore.WORST_SCORE
        BoardScore.BEST_SCORE poisonedSearcher).1 =
      BoundedScore.Exact BoardScore.EVEN ∧
    BoundedScore.Exact BoardScore.EVEN ≠ BoundedScore.Exact BoardScore.MATED ∧
    (alphabeta_search matedOps 1 () BoardScore.WORST_SCORE
        BoardScore.BEST_SCORE poisonedSearcher).2.hashmap =
      poisonedSearcher.hashmap := by
  refine ⟨rfl, rfl, by decide, by decide, by decide, by decide⟩

/-- C3 (amended): if `alphabeta_search` is called with `depth > 0`, the
stop conditions off (`stop_now` false and `movetime` 0, so the stop
condition cannot trigger during the call), `alpha < BEST_SCORE`,
`beta ≠ WORST_SCORE`, the transposition-table lookup for the position
missing, and the position has no legal moves, then it returns
`Exact(MATED)` when the position is in check and `Exact(EVEN)` otherwise,
and the final state stores exactly one new table entry for the position,
with that score, no best move, and depth 255. -/
theorem c3_no_moves_terminal {Board Move : Type} [DecidableEq Move]
    (ops : ChessOps Board Move) (d : Nat) (pos : Board)
    (alpha beta : BoardScore) (s : Searcher Move)
    (hd : 0 < d)
    (hstop : s.stop_conditions.stop_now = false)
    (hmt : s.stop_conditions.movetime = 0)
    (hget : s.hashmap.get (ops.getHash pos) = none)
    (hmoves : ops.legalMoves pos = [])
    (halpha : ¬ BoardScore.BEST_SCORE ≤ alpha)
    (hbeta : beta ≠ BoardScore.WORST_SCORE) :
    alphabeta_search ops d pos alpha beta s =
      ((if ops.inCheck pos then BoundedScore.Exact BoardScore.MATED
          else BoundedScore.Exact BoardScore.EVEN),
        { s with
          nodes := s.nodes + 1
          hashmap := s.hashmap.insert (ops.getHash pos)
            (HashEntry.with_contents (ops.getHash pos) none
              (if ops.inCheck pos then BoundedScore.Exact BoardScore.MATED
                else BoundedScore.Exact BoardScore.EVEN) 255) }) := by
  obtain ⟨d', rfl⟩ : ∃ e, d = e + 1 := ⟨d - 1, by omega⟩
  have hss : Searcher.should_stop_search
      ({ s with nodes := s.nodes + 1 } : Searcher Move) = false := by
    unfold Searcher.should_stop_search
    simp [hstop, hmt]
  have hentry : ab_entry ops (d' + 1) pos alpha beta s =
      (Sum.inr none, false, { s with nodes := s.nodes + 1 }) := by
    unfold ab_entry
    rw [if_neg halpha, if_neg hbeta]
    dsimp only
    rw [hget, hss]
  simp only [alphabeta_search]
  rw [hentry]
  dsimp only
  have hemit : (MoveGenerator.new ops pos (none : Option Move)).emit = [] := by
    unfold MoveGenerator.new MoveGenerator.emit
    dsimp only [Option.isSome]
    rw [hmoves]
    rfl
  rw [hemit]
  unfold ab_loop ab_finish
  dsimp only
  cases hchk : ops.inCheck pos with
  | true =>
    simp only [hss]
    simp
    intro h
    exact absurd h (by decide)
  | false =>
    simp only [hss]
    simp
    intro h
    exact absurd h (by decide)

/-- C3 (witness): the amended statement applied to the checkmate position
over a fresh table at depth 1. -/
theorem c3_no_moves_terminal_witness :
    (0 < 1 ∧
      freshSearcher.stop_conditions.stop_now = false ∧
      freshSearcher.stop_conditions.movetime = 0 ∧
      freshSearcher.hashmap.get (matedOps.getHash ()) = none ∧
      matedOps.legalMoves () = [] ∧
      ¬ BoardScore.BEST_SCORE ≤ BoardScore.WORST_SCORE ∧
      BoardScore.BEST_SCORE ≠ BoardScore.WORST_SCORE) ∧
    alphabeta_search matedOps 1 () BoardScore.WORST_SCORE
        BoardScore.BEST_SCORE freshSearcher =
      ((if matedOps.inCheck () then BoundedScore.Exact BoardScore.MATED
          else BoundedScore.Exact BoardScore.EVEN),
        { freshSearcher with
          nodes := freshSearcher.nodes + 1
          hashmap := freshSearcher.hashmap.insert (matedOps.getHash ())
            (HashEntry.with_contents (matedOps.getHash ()) none
              (if matedOps.inCheck () then BoundedScore.Exact BoardScore.MATED
                else BoundedScore.Exact BoardScore.EVEN) 255) }) :=
  ⟨⟨by decide, by decide, by decide, by decide, by decide, by decide, by decide⟩,
    c3_no_moves_terminal matedOps 1 () BoardScore.WORST_SCORE
      BoardScore.BEST_SCORE freshSearcher (by decide) (by decide) (by decide)
      (by decide) (by decide) (by decide) (by decide)⟩

/-! ## Slot-index termination (claim C8)

`get_slot_idx_for_hash`'s outer loop is unbounded in the source.  Over
the passes the hash takes the values `h, h + C, h + 2C, …` (mod `2^64`,
`C = ROT_ADD`): a 64-step rotation by 11 bits is the identity.  Since `C`
is odd it is invertible mod `2^64`, so within `2^64` passes the pass-head
hash takes any prescribed value — in particular the values `0, 1, 2, 3`,
whose first candidate slots are four distinct indices below any capacity
≥ 4.  Each pass adds every fresh candidate it attempts, so four distinct
candidates are collected within `SLOT_FUEL` passes. -/

/-- `2^64 - 1`: rotation is multiplication by `2^11` modulo this. -/
def U64M1 : Nat := 18446744073709551615

theorem rot11_lt {x : Nat} (h : x < U64) : rot11 x < U64 := by
  unfold rot11 U64 at *
  omega

theorem rot11_modeq (x : Nat) :
    rot11 x ≡ x * 2048 [MOD U64M1] := by
  unfold Nat.ModEq rot11 U64M1
  rw [show x * 2048 =
    (x % 9007199254740992 * 2048 + x / 9007199254740992) +
      x / 9007199254740992 * 18446744073709551615 from by omega]
  exact (Nat.add_mul_mod_self_right _ _ _).symm

theorem rot11_iter_lt {x : Nat} (h : x < U64) (k : Nat) : rot11^[k] x < U64 := by
  induction k with
  | zero => exact h
  | succ k ih => rw [Function.iterate_succ_apply']; exact rot11_lt ih

theorem rot11_iter_modeq (x : Nat) (k : Nat) :
    rot11^[k] x ≡ x * 2048 ^ k [MOD U64M1] := by
  induction k with
  | zero => simpa using Nat.ModEq.refl x
  | succ k ih =>
    rw [Function.iterate_succ_apply']
    calc rot11 (rot11^[k] x)
        ≡ rot11^[k] x * 2048 [MOD U64M1] := rot11_modeq (rot11^[k] x)
      _ ≡ x * 2048 ^ k * 2048 [MOD U64M1] := ih.mul_right 2048
      _ = x * 2048 ^ (k + 1) := by ring

theorem pow2048_64_modeq : (2048 : Nat) ^ 64 ≡ 1 [MOD U64M1] := by
  have h1 : (2048 : Nat) ^ 64 = (U64M1 + 1) ^ 11 := by norm_num [U64M1]
  have h2 : U64M1 + 1 ≡ 1 [MOD U64M1] := by
    unfold Nat.ModEq
    simp [Nat.add_comm U64M1 1]
  calc (2048 : Nat) ^ 64 = (U64M1 + 1) ^ 11 := h1
    _ ≡ 1 ^ 11 [MOD U64M1] := h2.pow 11
    _ = 1 := one_pow 11

theorem rot11_iter_64 {x : Nat} (h : x < U64) : rot11^[64] x = x := by
  by_cases h0 : x = 0
  · subst h0
    exact Function.iterate_fixed (by decide) 64
  by_cases h1 : x = U64M1
  · subst h1
    exact Function.iterate_fixed (by decide) 64
  have hm : rot11^[64] x ≡ x [MOD U64M1] := by
    calc rot11^[64] x ≡ x * 2048 ^ 64 [MOD U64M1] := rot11_iter_modeq x 64
      _ ≡ x * 1 [MOD U64M1] := pow2048_64_modeq.mul_left x
      _ = x := Nat.mul_one x
  have hlt := rot11_iter_lt h 64
  unfold Nat.ModEq at hm
  unfold U64 at *
  unfold U64M1 at *
  omega

theorem rot_add_inverse : ROT_ADD * ROT_ADD_INV ≡ 1 [MOD U64] := by
  decide

theorem exists_pass_hit {hash : Nat} (r : Nat) (hh : hash < U64) (hr : r < 4) :
    ∃ n, n < U64 ∧ (hash + n * ROT_ADD) % U64 = r := by
  refine ⟨(r + U64 - hash) * ROT_ADD_INV % U64, Nat.mod_lt _ (by norm_num [U64]), ?_⟩
  have hstep : hash + (r + U64 - hash) * ROT_ADD_INV % U64 * ROT_ADD ≡
      hash + (r + U64 - hash) * (ROT_ADD_INV * ROT_ADD) [MOD U64] := by
    refine Nat.ModEq.add_left hash ?_
    calc (r + U64 - hash) * ROT_ADD_INV % U64 * ROT_ADD
        ≡ (r + U64 - hash) * ROT_ADD_INV * ROT_ADD [MOD U64] :=
          (Nat.mod_modEq _ _).mul_right ROT_ADD
      _ = (r + U64 - hash) * (ROT_ADD_INV * ROT_ADD) := by ring
  have hinv : (r + U64 - hash) * (ROT_ADD_INV * ROT_ADD) ≡
      (r + U64 - hash) * 1 [MOD U64] := by
    refine Nat.ModEq.mul_left _ ?_
    calc ROT_ADD_INV * ROT_ADD = ROT_ADD * ROT_ADD_INV := Nat.mul_comm _ _
      _ ≡ 1 [MOD U64] := rot_add_inverse
  have hsum : hash + (r + U64 - hash) * 1 = r + U64 := by
    have : hash ≤ r + U64 := by unfold U64 at *; omega
    omega
  have hfin : hash + (r + U64 - hash) * ROT_ADD_INV % U64 * ROT_ADD ≡
      r [MOD U64] := by
    calc hash + (r + U64 - hash) * ROT_ADD_INV % U64 * ROT_ADD
        ≡ hash + (r + U64 - hash) * (ROT_ADD_INV * ROT_ADD) [MOD U64] := hstep
      _ ≡ hash + (r + U64 - hash) * 1 [MOD U64] := Nat.ModEq.add_left hash hinv
      _ = r + U64 := hsum
      _ ≡ r [MOD U64] := Nat.add_mod_right r U64
  unfold Nat.ModEq at hfin
  rw [hfin]
  exact Nat.mod_eq_of_lt (by unfold U64 at *; omega)

theorem slot_pass_inl (cap : Nat) :
    ∀ (k hash : Nat) (res : List Nat) (h' : Nat) (res' : List Nat),
    slot_pass cap k hash res = Sum.inl (h', res') →
    h' = rot11^[k] hash ∧
    (∃ t, res' = res ++ t) ∧
    (res.Nodup → res'.Nodup) ∧
    ((∀ x ∈ res, x < cap) → 0 < cap → ∀ x ∈ res', x < cap) ∧
    (res.length ≤ 3 → res'.length ≤ 3) ∧
    (1 ≤ k → hash % cap ∈ res') := by
  intro k
  induction k with
  | zero =>
    intro hash res h' res' heq
    simp only [slot_pass, Sum.inl.injEq, Prod.mk.injEq] at heq
    obtain ⟨rfl, rfl⟩ := heq
    exact ⟨rfl, ⟨[], by simp⟩, fun h => h, fun h _ => h, fun h => h, by omega⟩
  | succ k ih =>
    intro hash res h' res' heq
    simp only [slot_pass] at heq
    by_cases hmem : hash % cap ∈ res
    · rw [if_pos hmem] at heq
      obtain ⟨hh, ⟨t, ht⟩, hnd, hbd, hlen, _⟩ := ih (rot11 hash) res h' res' heq
      refine ⟨by rw [hh, Function.iterate_succ_apply], ⟨t, ht⟩, hnd, hbd, hlen,
        fun _ => ?_⟩
      rw [ht]
      exact List.mem_append_left t hmem
    · rw [if_neg hmem] at heq
      by_cases hlen4 : 4 ≤ (res ++ [hash % cap]).length
      · rw [if_pos hlen4] at heq
        cases heq
      · rw [if_neg hlen4] at heq
        obtain ⟨hh, ⟨t, ht⟩, hnd, hbd, hlen, _⟩ :=
          ih (rot11 hash) (res ++ [hash % cap]) h' res' heq
        refine ⟨by rw [hh, Function.iterate_succ_apply], ?_, ?_, ?_, ?_, fun _ => ?_⟩
        · exact ⟨[hash % cap] ++ t, by rw [ht, List.append_assoc]⟩
        · intro hres
          refine hnd ?_
          simp [List.nodup_append, hres, hmem]
        · intro hres hcap0
          refine hbd (fun x hx => ?_) hcap0
          rcases List.mem_append.mp hx with hx1 | hx2
          · exact hres x hx1
          · have : x = hash % cap := by simpa using hx2
            rw [this]
            exact Nat.mod_lt _ hcap0
        · intro _
          refine hlen ?_
          simp only [List.length_append, List.length_singleton] at hlen4 ⊢
          omega
        · rw [ht]
          refine List.mem_append_left t ?_
          exact List.mem_append_right res (by simp)

theorem slot_pass_inr (cap : Nat) :
    ∀ (k hash : Nat) (res : List Nat) (r : List Nat),
    slot_pass cap k hash res = Sum.inr r →
    (res.Nodup → r.Nodup) ∧
    ((∀ x ∈ res, x < cap) → 0 < cap → ∀ x ∈ r, x < cap) ∧
    (res.length ≤ 3 → r.length = 4) := by
  intro k
  induction k with
  | zero =>
    intro hash res r heq
    simp only [slot_pass] at heq
    cases heq
  | succ k ih =>
    intro hash res r heq
    simp only [slot_pass] at heq
    by_cases hmem : hash % cap ∈ res
    · rw [if_pos hmem] at heq
      exact ih (rot11 hash) res r heq
    · rw [if_neg hmem] at heq
      by_cases hlen4 : 4 ≤ (res ++ [hash % cap]).length
      · rw [if_pos hlen4] at heq
        cases heq
        refine ⟨fun hres => ?_, fun hres hcap0 x hx => ?_, fun hres => ?_⟩
        · simp [List.nodup_append, hres, hmem]
        · rcases List.mem_append.mp hx with hx1 | hx2
          · exact hres x hx1
          · have : x = hash % cap := by simpa using hx2
            rw [this]
            exact Nat.mod_lt _ hcap0
        · simp only [List.length_append, List.length_singleton] at hlen4 ⊢
          omega
      · rw [if_neg hlen4] at heq
        obtain ⟨hnd, hbd, hlen⟩ := ih (rot11 hash) (res ++ [hash % cap]) r heq
        refine ⟨fun hres => ?_, fun hres hcap0 => ?_, fun hres => ?_⟩
        · refine hnd ?_
          simp [List.nodup_append, hres, hmem]
        · refine hbd (fun x hx => ?_) hcap0
          rcases List.mem_append.mp hx with hx1 | hx2
          · exact hres x hx1
          · have : x = hash % cap := by simpa using hx2
            rw [this]
            exact Nat.mod_lt _ hcap0
        · refine hlen ?_
          simp only [List.length_append, List.length_singleton] at hlen4 ⊢
          omega

theorem exists_small_not_mem (res : List Nat) (h : res.length ≤ 3) :
    ∃ r, r < 4 ∧ r ∉ res := by
  by_contra hc
  push_neg at hc
  have h1 : ({0, 1, 2, 3} : Finset Nat) ⊆ res.toFinset := by
    intro x hx
    have hx4 : x < 4 := by fin_cases hx <;> norm_num
    exact List.mem_toFinset.mpr (hc x hx4)
  have h2 := Finset.card_le_card h1
  have h3 := res.toFinset_card_le
  have h4 : ({0, 1, 2, 3} : Finset Nat).card = 4 := by decide
  omega

theorem slot_loop_terminates (cap : Nat) (hcap : 4 ≤ cap) :
    ∀ (fuel hash : Nat) (res : List Nat),
    hash < U64 → res.Nodup → (∀ x ∈ res, x < cap) → res.length ≤ 3 →
    (∀ r, r < 4 → r ∉ res → ∃ n, n < fuel ∧ (hash + n * ROT_ADD) % U64 = r) →
    ∃ out, slot_loop cap fuel hash res = some out ∧
      out.Nodup ∧ out.length = 4 ∧ ∀ x ∈ out, x < cap := by
  have hcap0 : 0 < cap := by omega
  intro fuel
  induction fuel with
  | zero =>
    intro hash res _ _ _ hlen htgt
    obtain ⟨r, hr4, hrmem⟩ := exists_small_not_mem res hlen
    obtain ⟨n, hn, _⟩ := htgt r hr4 hrmem
    omega
  | succ fuel ih =>
    intro hash res hh hnd hbd hlen htgt
    cases hp : slot_pass cap 64 hash res with
    | inr r =>
      obtain ⟨hnd', hbd', hlen'⟩ := slot_pass_inr cap 64 hash res r hp
      exact ⟨r, by simp [slot_loop, hp], hnd' hnd, hlen' hlen, hbd' hbd hcap0⟩
    | inl p =>
      rcases p with ⟨h', res'⟩
      obtain ⟨hh', ⟨t, ht⟩, hnd', hbd', hlen', hfirst⟩ :=
        slot_pass_inl cap 64 hash res h' res' hp
      have hhid : h' = hash := by rw [hh', rot11_iter_64 hh]
      have hstep : slot_loop cap (fuel + 1) hash res =
          slot_loop cap fuel ((hash + ROT_ADD) % U64) res' := by
        simp [slot_loop, hp, hhid]
      rw [hstep]
      refine ih ((hash + ROT_ADD) % U64) res'
        (Nat.mod_lt _ (by norm_num [U64])) (hnd' hnd) (hbd' hbd hcap0)
        (hlen' hlen) ?_
      intro r hr4 hrmem'
      have hrmem : r ∉ res := fun hmem => hrmem' (ht ▸ List.mem_append_left t hmem)
      obtain ⟨n, hn, hneq⟩ := htgt r hr4 hrmem
      cases n with
      | zero =>
        exfalso
        have h0 : hash % U64 = r := by simpa using hneq
        have hhr : hash = r := by
          rw [Nat.mod_eq_of_lt hh] at h0
          exact h0
        have : hash % cap = r := by
          rw [hhr]
          exact Nat.mod_eq_of_lt (by omega)
        exact hrmem' (this ▸ hfirst (by omega))
      | succ n' =>
        refine ⟨n', by omega, ?_⟩
        rw [Nat.mod_add_mod]
        rw [show (hash + ROT_ADD) + n' * ROT_ADD = hash + (n' + 1) * ROT_ADD from by
          ring]
        exact hneq

/-- C8: for every 64-bit hash and capacity at least 4, the slot-index
search terminates within the modelled fuel (`slot_loop` returns `some`,
so the `getD` fallback in `get_slot_idx_for_hash` is never taken), and the
four indices produced are pairwise distinct and each below the
capacity. -/
theorem c8_get_slot_idx_for_hash_ok (cap hash : Nat) (hcap : 4 ≤ cap)
    (hh : hash < U64) :
    slot_loop cap SLOT_FUEL hash [] = some (get_slot_idx_for_hash cap hash) ∧
    (get_slot_idx_for_hash cap hash).Nodup ∧
    (get_slot_idx_for_hash cap hash).length = 4 ∧
    ∀ x ∈ get_slot_idx_for_hash cap hash, x < cap := by
  obtain ⟨out, hout, hnd, hlen, hbd⟩ :=
    slot_loop_terminates cap hcap SLOT_FUEL hash [] hh (by simp) (by simp)
      (by simp) (fun r hr4 _ => exists_pass_hit r hh hr4)
  have hdef : get_slot_idx_for_hash cap hash = out := by
    unfold get_slot_idx_for_hash
    rw [hout]
    rfl
  rw [hdef]
  exact ⟨hout, hnd, hlen, hbd⟩

/-- C8 (witness): capacity 8 and hash 12345. -/
theorem c8_get_slot_idx_for_hash_ok_witness :
    (4 ≤ 8 ∧ 12345 < U64) ∧
    (slot_loop 8 SLOT_FUEL 12345 [] = some (get_slot_idx_for_hash 8 12345) ∧
      (get_slot_idx_for_hash 8 12345).Nodup ∧
      (get_slot_idx_for_hash 8 12345).length = 4 ∧
      ∀ x ∈ get_slot_idx_for_hash 8 12345, x < 8) :=
  ⟨⟨by decide, by decide⟩,
    c8_get_slot_idx_for_hash_ok 8 12345 (by decide) (by decide)⟩

end Engine
